import Mathlib

/-!
Verification of the krakncat account manager.

The Go sources are shallowly embedded: strings become lists of characters,
file contents become such lists, the filesystem becomes a finite association
of paths to nodes, and invocations of external binaries (git, ssh-keygen)
become explicit data so their presence and arguments can be reasoned about.
Every definition mirrors the function of the same purpose in the sources,
with the file and line references given in its documentation.
-/

namespace Krakncat

/-- Strings are modelled as lists of characters. -/
abbrev Str := List Char

/-- Model of strings.Contains from the Go standard library: the pattern
occurs as a contiguous substring of the second argument. -/
def containsSub (pat : Str) : Str → Bool
  | [] => pat.isEmpty
  | c :: rest => pat.isPrefixOf (c :: rest) || containsSub pat rest

/-- Model of strings.TrimPrefix from the Go standard library. -/
def trimLeading (s pre : Str) : Str :=
  if pre.isPrefixOf s then s.drop pre.length else s

/-- Model of strings.Split from the Go standard library, restricted to a
single-character separator (the sources only split on a newline or a dot). -/
def splitOnChar (sep : Char) : Str → List Str
  | [] => [[]]
  | c :: rest =>
    if c = sep then [] :: splitOnChar sep rest
    else
      match splitOnChar sep rest with
      | [] => [[c]]
      | l :: ls => (c :: l) :: ls

/-- Number of lines of s, split at newlines, that are equal to t. -/
def lineCount (t s : Str) : Nat := (splitOnChar '\n' s).count t

/-- ASCII whitespace recognised by the model of strings.TrimSpace. -/
def isSpaceChar (c : Char) : Bool :=
  c == ' ' || c == '\t' || c == '\n' || c == '\r'

/-- Model of strings.TrimSpace, restricted to ASCII whitespace. -/
def trimSpace (s : Str) : Str :=
  ((s.dropWhile isSpaceChar).reverse.dropWhile isSpaceChar).reverse

/-! ## Conditional includes (cmd/directory.go) -/

/-- The gitdir marker of a conditional include stanza (directory.go line 139). -/
def gitdirTag : Str := "gitdir:".data

/-- Normalisation of a directory path for gitdir matching: git requires a
trailing slash, so one is appended when missing (directory.go lines 130 to 133). -/
def normalizeGitDir (d : Str) : Str :=
  if (['/']).isSuffixOf d then d else d ++ ['/']

/-- The header line of a conditional include stanza, as produced by the
format string of directory.go line 135. -/
def includeHeader (pat : Str) : Str :=
  '[' :: ("includeIf \"".data ++ gitdirTag ++ pat ++ "\"]".data)

/-- The path line of a conditional include stanza (directory.go line 135). -/
def pathLine (cfg : Str) : Str := '\t' :: ("path = ".data ++ cfg)

/-- The full text appended for one conditional include stanza
(directory.go line 135). -/
def includeSection (pat cfg : Str) : Str :=
  '\n' :: (includeHeader pat ++ '\n' :: (pathLine cfg ++ ['\n']))

/-- Model of addConditionalInclude (directory.go lines 124 to 158). The state
is the content of the global .gitconfig file, none when the file does not
exist (the read then fails and the existence check is skipped). The result is
the content of the file after the call: unchanged when the gitdir pattern is
already contained, otherwise with the stanza appended, the file being created
when absent. -/
def addConditionalInclude (dirPath configPath : Str) (global : Option Str) : Str :=
  let pat := normalizeGitDir dirPath
  let sec := includeSection pat configPath
  match global with
  | some content =>
    if containsSub (gitdirTag ++ pat) content then content else content ++ sec
  | none => sec

/-! ## SSH host alias blocks (cmd/remove.go, generateSSHKey) -/

/-- The Host line of the SSH config snippet (remove.go line 167). -/
def hostAliasLine (name : Str) : Str := 'H' :: ("ost github.com-".data ++ name)

/-- The HostName line of the snippet (remove.go line 168). -/
def hostNameLine : Str := ' ' :: " HostName github.com".data

/-- The User line of the snippet (remove.go line 169). -/
def userGitLine : Str := ' ' :: " User git".data

/-- The IdentityFile line of the snippet (remove.go line 170). -/
def identityFileLine (keyPath : Str) : Str :=
  ' ' :: (" IdentityFile ".data ++ keyPath)

/-- The SSH config snippet built by generateSSHKey (remove.go lines 165 to 171). -/
def sshConfigSnippet (name keyPath : Str) : Str :=
  '\n' :: '\n' :: (hostAliasLine name ++ '\n' ::
    (hostNameLine ++ '\n' :: (userGitLine ++ '\n' ::
      (identityFileLine keyPath ++ ['\n']))))

/-- Model of the SSH config update step of generateSSHKey (remove.go lines
180 to 196): the snippet is appended to the file content unconditionally,
after the interactive confirmation. -/
def appendHostAlias (name keyPath cfg : Str) : Str :=
  cfg ++ sshConfigSnippet name keyPath

/-! ## The persisted config store (cmd/root.go) -/

/-- Account record (root.go lines 701 to 707). -/
structure Account where
  name : Str
  email : Str
  sshKey : Str
  username : Str
  isDefault : Bool
  deriving DecidableEq

/-- The persisted store (root.go lines 709 to 713). -/
structure Config where
  accounts : List Account
  currentAccount : Str
  migrationDone : Bool
  deriving DecidableEq

/-- First-match replacement of an account of the same name, mirroring the
loop of addAccount (root.go lines 770 to 775). none when no name matches. -/
def replaceFirst : List Account → Account → Option (List Account)
  | [], _ => none
  | x :: xs, a =>
    if x.name = a.name then some (a :: xs)
    else
      match replaceFirst xs a with
      | some ys => some (x :: ys)
      | none => none

/-- Model of Config.addAccount (root.go lines 768 to 788), without the
persistence step. An existing account of the same name is overwritten in
place; otherwise the account is appended, and when it is the only account it
becomes the default and the current account. -/
def addAccount (c : Config) (a : Account) : Config :=
  match replaceFirst c.accounts a with
  | some r => { c with accounts := r }
  | none =>
    let l := c.accounts ++ [a]
    if l.length = 1 then
      { c with accounts := [{ a with isDefault := true }],
               currentAccount := a.name }
    else
      { c with accounts := l }

/-- Model of Config.getAccount (root.go lines 790 to 797): first name match. -/
def getAccount (c : Config) (name : Str) : Option Account :=
  c.accounts.find? (fun a => a.name == name)

/-- Model of Config.setCurrentAccount (root.go lines 799 to 807): none models
the not-found error, and the store is then unchanged. -/
def setCurrentAccount (c : Config) (name : Str) : Option Config :=
  match getAccount c name with
  | none => none
  | some _ => some { c with currentAccount := name }

/-- Model of the store mutation performed by the remove command after the
confirmation (remove.go lines 47 to 65): all accounts of the given name are
filtered out, and when the current account was removed it is re-pointed to
the first remaining account, or emptied. -/
def removeAccount (c : Config) (name : Str) : Config :=
  let accs := c.accounts.filter (fun a => a.name != name)
  let cur :=
    if c.currentAccount = name then
      match accs with
      | [] => []
      | x :: _ => x.name
    else c.currentAccount
  { c with accounts := accs, currentAccount := cur }

/-- Store invariant: currentAccount, when non-empty, names an existing account. -/
def configInv (c : Config) : Prop :=
  c.currentAccount = [] ∨ ∃ a ∈ c.accounts, a.name = c.currentAccount

instance (c : Config) : Decidable (configInv c) := by
  unfold configInv; infer_instance

/-- The display predicate of the list command (root.go line 485): an account
is marked current exactly when its name equals currentAccount. -/
def isCurrentMark (c : Config) (a : Account) : Bool := a.name == c.currentAccount

/-! ## Key suffix derivation (cmd/providers.go) -/

/-- Model of generateKeySuffix (providers.go lines 302 to 326). -/
def generateKeySuffix (hostname : Str) : Str :=
  let h1 := trimLeading hostname "git.".data
  let h2 := trimLeading h1 "code.".data
  let h3 := trimLeading h2 "source.".data
  let parts := splitOnChar '.' h3
  if 2 ≤ parts.length then
    if 8 < (parts.headD []).length then (parts.headD []).take 8 else parts.headD []
  else
    if 8 < h3.length then h3.take 8 else h3

/-- The derivation rule as the specification words it: strip the provider
prefixes, take the first dot-separated label, truncate to 8 characters. -/
def specKeySuffix (hostname : Str) : Str :=
  ((splitOnChar '.' (trimLeading (trimLeading (trimLeading hostname
    "git.".data) "code.".data) "source.".data)).headD []).take 8

/-! ## Filesystem model and key generation (cmd/remove.go) -/

/-- A filesystem node: a directory, or a file with its content. -/
inductive FsNode where
  | dir : FsNode
  | file : Str → FsNode
  deriving DecidableEq

/-- A filesystem is a finite association of paths to nodes. -/
abbrev FS := List (Str × FsNode)

/-- Model of os.Stat on the association list. -/
def statNode (fs : FS) (p : Str) : Option FsNode :=
  (fs.find? (fun e => e.1 == p)).map (fun e => e.2)

/-- Outcome of the key pair generation (remove.go lines 124 to 162). -/
inductive GenResult where
  | alreadyExists : GenResult
  | generationFailed : GenResult
  | pubReadFailed : GenResult
  | ok : Str → GenResult
  deriving DecidableEq

/-- The argument vector passed to ssh-keygen (remove.go lines 141 to 147):
ed25519 algorithm, comment from the email, output file, empty passphrase. -/
def keygenArgs (email keyPath : Str) : List Str :=
  ["-t".data, "ed25519".data, "-C".data, email, "-f".data, keyPath,
   "-q".data, "-N".data, []]

/-- Model of the key generation part of generateSSHKey (remove.go lines 124
to 162). The parameter outcome models the external ssh-keygen run: none for
a non-zero exit; otherwise the private and public key contents it writes at
keyPath and at keyPath plus the .pub extension. The result carries the
argument vector of the invocation, none when the tool was never invoked. -/
def generateKeyPair (outcome : Option (Str × Str)) (keyPath email : Str)
    (fs : FS) : GenResult × Option (List Str) :=
  if (statNode fs keyPath).isSome then (.alreadyExists, none)
  else
    match outcome with
    | none => (.generationFailed, some (keygenArgs email keyPath))
    | some (priv, pub) =>
      let fs2 : FS := (keyPath ++ ".pub".data, .file pub)
        :: (keyPath, .file priv) :: fs
      match statNode fs2 (keyPath ++ ".pub".data) with
      | some (.file content) => (.ok content, some (keygenArgs email keyPath))
      | _ => (.pubReadFailed, some (keygenArgs email keyPath))

/-! ## Local identity switching (cmd/root.go, useCmd) -/

/-- Model of isGitRepository (root.go lines 921 to 927): the path joined with
.git must exist and be a directory. -/
def isGitRepository (fs : FS) (path : Str) : Bool :=
  match statNode fs (path ++ "/.git".data) with
  | some .dir => true
  | _ => false

/-- The argument vector of one git config invocation (root.go lines 929 to 939). -/
def setGitConfigArgs (key value repoPath : Str) (global : Bool) : List Str :=
  if global then ["git".data, "config".data, "--global".data, key, value]
  else ["git".data, "-C".data, repoPath, "config".data, key, value]

/-- Outcome of the use command on a local path. -/
inductive UseResult where
  | notARepository : UseResult
  | accountNotFound : UseResult
  | ok : UseResult
  deriving DecidableEq

/-- Model of the local-scope path of the use command (root.go lines 834 to
893): the repository check comes first, then the account lookup, then the
two git config invocations for user.name and user.email. The second
component is the list of git invocations performed, in order. -/
def useLocal (fs : FS) (c : Config) (accountName repoPath : Str) :
    UseResult × List (List Str) :=
  if isGitRepository fs repoPath = false then (.notARepository, [])
  else
    match getAccount c accountName with
    | none => (.accountNotFound, [])
    | some a =>
      (.ok, [setGitConfigArgs "user.name".data a.username repoPath false,
             setGitConfigArgs "user.email".data a.email repoPath false])

/-! ## Permissions of the SSH directory and config file (cmd/remove.go) -/

/-- A MkdirAll invocation: path and permission bits. -/
structure MkdirAllCall where
  path : Str
  perm : Nat
  deriving DecidableEq

/-- An OpenFile invocation: path, whether the create flag is set, permission
bits used on creation. -/
structure OpenFileCall where
  path : Str
  create : Bool
  perm : Nat
  deriving DecidableEq

/-- Model of ensureSSHDirectory (remove.go lines 210 to 222): MkdirAll of the
.ssh directory with mode 0700. -/
def ensureSSHDirectory (home : Str) : MkdirAllCall :=
  { path := home ++ "/.ssh".data, perm := 0o700 }

/-- The OpenFile invocation that creates or appends the SSH client
configuration file (remove.go line 188): append, create, write-only, with
mode 0644. -/
def openSSHConfigCall (home : Str) : OpenFileCall :=
  { path := home ++ "/.ssh/config".data, create := true, perm := 0o644 }

/-! ## Discovery scanner (cmd/root.go) -/

/-- A candidate account produced by the scanner (root.go lines 42 to 48). -/
structure DiscoveredAccount where
  name : Str
  email : Str
  username : Str
  source : Str
  suggested : Bool
  deriving DecidableEq

/-- The line loop of discoverSSHAccounts (root.go lines 179 to 199), with the
current Host block as explicit state. -/
def discoverSSHLoop : List Str → Str → List DiscoveredAccount
  | [], _ => []
  | line :: rest, currentHost =>
    if ("Host github.com-".data).isPrefixOf (trimSpace line) = true then
      discoverSSHLoop rest (trimLeading (trimSpace line) "Host ".data)
    else if ("User ".data).isPrefixOf (trimSpace line) = true ∧ currentHost ≠ [] then
      if trimLeading currentHost "github.com-".data ≠ []
          ∧ trimLeading currentHost "github.com-".data ≠ "github.com".data then
        { name := [], email := [],
          username := trimLeading (trimSpace line) "User ".data,
          source := "SSH Config (".data ++ currentHost ++ [')'],
          suggested := false } :: discoverSSHLoop rest currentHost
      else discoverSSHLoop rest currentHost
    else discoverSSHLoop rest currentHost

/-- Model of discoverSSHAccounts (root.go lines 161 to 202): none models a
missing or unreadable SSH config file, which yields no accounts rather than
an error. -/
def discoverSSHAccounts (sshConfig : Option Str) : List DiscoveredAccount :=
  match sshConfig with
  | none => []
  | some content => discoverSSHLoop (splitOnChar '\n' content) []

/-- Model of discoverExistingAccounts (root.go lines 137 to 158). The global
git identity values are inputs, empty when unset (getGitConfigValue returns
the empty string on any git failure). -/
def discoverExistingAccounts (globalUser globalEmail : Str)
    (sshConfig : Option Str) : List DiscoveredAccount :=
  (if globalUser ≠ [] ∨ globalEmail ≠ [] then
    [{ name := globalUser, email := globalEmail, username := [],
       source := "Global Git Config".data, suggested := true }]
  else []) ++ discoverSSHAccounts sshConfig

/-! ## Loading the config store (cmd/root.go, loadConfig) -/

/-- The three ways reading the config file can go. -/
inductive FileRead where
  | absent : FileRead
  | unreadable : FileRead
  | content : Str → FileRead
  deriving DecidableEq

/-- The error kinds of loadConfig. -/
inductive LoadErr where
  | readFailed : LoadErr
  | parseFailed : LoadErr
  deriving DecidableEq

/-- The fresh default store returned when the config file is missing
(root.go lines 729 to 735). -/
def defaultConfig : Config :=
  { accounts := [], currentAccount := [], migrationDone := false }

/-- Model of loadConfig (root.go lines 726 to 748). parseJson models the
unmarshalling of the file content through encoding/json. -/
def loadConfig (f : FileRead) (parseJson : Str → Option Config) :
    Except LoadErr Config :=
  match f with
  | .absent => .ok defaultConfig
  | .unreadable => .error .readFailed
  | .content s =>
    match parseJson s with
    | none => .error .parseFailed
    | some c => .ok c

/-! ## Sanity checks tying the literal pieces to the Go format strings -/

/-! ## Aliases for library facts about list prefixes and infixes -/

theorem isPre_iff {l t : Str} : l.isPrefixOf t = true ↔ l <+: t :=
  List.isPrefixOf_iff_prefix

theorem isSuf_iff {l t : Str} : l.isSuffixOf t = true ↔ l <:+ t :=
  List.isSuffixOf_iff_suffix

theorem infixConsIff {a : Char} {l₁ l₂ : Str} :
    l₁ <:+: a :: l₂ ↔ l₁ <+: a :: l₂ ∨ l₁ <:+: l₂ :=
  List.infix_cons_iff

theorem infixNilIff {l : Str} : l <:+: ([] : Str) ↔ l = [] :=
  List.infix_nil

theorem preAppend (l t : Str) : l <+: l ++ t :=
  List.prefix_append l t

theorem sufAppend (l t : Str) : t <:+ l ++ t :=
  List.suffix_append l t

theorem preTotal {l₁ l₂ l₃ : Str} (h₁ : l₁ <+: l₃) (h₂ : l₂ <+: l₃) :
    l₁ <+: l₂ ∨ l₂ <+: l₁ :=
  List.prefix_or_prefix_of_prefix h₁ h₂

/-- Membership propagation through cons, used to show a character is not in
a composed string. -/
theorem nmC {α} {a b : α} {l : List α} (h1 : a ≠ b) (h2 : a ∉ l) :
    a ∉ b :: l := by
  intro hm
  rcases List.mem_cons.mp hm with rfl | hm2
  · exact h1 rfl
  · exact h2 hm2

/-- Membership propagation through append. -/
theorem nmA {α} {a : α} {l₁ l₂ : List α} (h1 : a ∉ l₁) (h2 : a ∉ l₂) :
    a ∉ l₁ ++ l₂ := by
  intro hm
  rcases List.mem_append.mp hm with hm1 | hm2
  · exact h1 hm1
  · exact h2 hm2

/-! ## Facts about splitOnChar -/

theorem splitOnChar_ne_nil (sep : Char) (l : Str) : splitOnChar sep l ≠ [] := by
  induction l with
  | nil => simp [splitOnChar]
  | cons c rest ih =>
    by_cases h : c = sep
    · simp [splitOnChar, h]
    · cases hsp : splitOnChar sep rest with
      | nil => simp [splitOnChar, h, hsp]
      | cons a as => simp [splitOnChar, h, hsp]

/-- Splitting a concatenation at an explicit separator splits each side. -/
theorem splitOnChar_append_sep (sep : Char) (x y : Str) :
    splitOnChar sep (x ++ sep :: y) = splitOnChar sep x ++ splitOnChar sep y := by
  induction x with
  | nil => simp [splitOnChar]
  | cons a x ih =>
    by_cases h : a = sep
    · simp [splitOnChar, h, ih]
    · cases hsp : splitOnChar sep x with
      | nil => exact absurd hsp (splitOnChar_ne_nil sep x)
      | cons l ls => simp [splitOnChar, h, ih, hsp]

/-- A separator-free string splits into itself. -/
theorem splitOnChar_eq_self (sep : Char) (l : Str) (h : sep ∉ l) :
    splitOnChar sep l = [l] := by
  induction l with
  | nil => rfl
  | cons c rest ih =>
    have hc : ¬ c = sep := by rintro rfl; exact h (List.mem_cons_self _ _)
    have hr : sep ∉ rest := fun hh => h (List.mem_cons_of_mem c hh)
    simp [splitOnChar, hc, ih hr]

/-- When a split has a single part, the string is that part. -/
theorem splitOnChar_eq_single (sep : Char) (l x : Str)
    (h : splitOnChar sep l = [x]) : l = x := by
  induction l generalizing x with
  | nil =>
    simp [splitOnChar] at h
    exact h.symm
  | cons c rest ih =>
    by_cases hc : c = sep
    · simp [splitOnChar, hc] at h
      exact absurd h.2 (splitOnChar_ne_nil sep rest)
    · cases hsp : splitOnChar sep rest with
      | nil => exact absurd hsp (splitOnChar_ne_nil sep rest)
      | cons a as =>
        simp [splitOnChar, hc, hsp] at h
        obtain ⟨h1, h2⟩ := h
        subst h2
        have hra : rest = a := ih a hsp
        rw [← h1, hra]

/-- The first part of a split is a leading segment of the string. -/
theorem head_of_splitOnChar (sep : Char) (l h : Str) (t : List Str)
    (hs : splitOnChar sep l = h :: t) : h <+: l := by
  induction l generalizing h t with
  | nil =>
    have hs2 : ([[]] : List Str) = h :: t := hs
    obtain ⟨h1, _⟩ := List.cons.inj hs2
    cases h1
    exact List.nil_prefix
  | cons c rest ih =>
    by_cases hc : c = sep
    · rw [splitOnChar] at hs
      rw [if_pos hc] at hs
      obtain ⟨h1, _⟩ := List.cons.inj hs
      cases h1
      exact List.nil_prefix
    · cases hsp : splitOnChar sep rest with
      | nil => exact absurd hsp (splitOnChar_ne_nil sep rest)
      | cons a as =>
        rw [splitOnChar] at hs
        rw [if_neg hc, hsp] at hs
        obtain ⟨h1, _⟩ := List.cons.inj hs
        obtain ⟨u, hu⟩ := ih a as hsp
        exact ⟨u, by rw [← h1]; simp [← hu]⟩

/-- Every part of a split is a contiguous substring of the string. -/
theorem infix_of_mem_splitOnChar (sep : Char) (l x : Str)
    (hx : x ∈ splitOnChar sep l) : x <:+: l := by
  induction l generalizing x with
  | nil =>
    simp [splitOnChar] at hx
    simp [hx]
  | cons c rest ih =>
    by_cases hc : c = sep
    · rw [splitOnChar] at hx
      rw [if_pos hc] at hx
      rcases List.mem_cons.mp hx with rfl | hx2
      · exact List.nil_infix
      · exact (ih x hx2).trans ⟨[c], [], by simp⟩
    · cases hsp : splitOnChar sep rest with
      | nil => exact absurd hsp (splitOnChar_ne_nil sep rest)
      | cons a as =>
        rw [splitOnChar] at hx
        rw [if_neg hc, hsp] at hx
        rcases List.mem_cons.mp hx with rfl | hx2
        · obtain ⟨u, hu⟩ := head_of_splitOnChar sep rest a as hsp
          exact ⟨[], u, by simp [← hu]⟩
        · have : x ∈ splitOnChar sep rest := by rw [hsp]; exact List.mem_cons_of_mem a hx2
          exact (ih x this).trans ⟨[c], [], by simp⟩

/-! ## Facts about containsSub -/

theorem containsSub_true_iff (pat l : Str) : containsSub pat l = true ↔ pat <:+: l := by
  induction l with
  | nil =>
    simp [containsSub, List.isEmpty_iff, infixNilIff]
  | cons c rest ih =>
    rw [containsSub, Bool.or_eq_true, ih, infixConsIff, isPre_iff]

/-- The pattern is found in any string that contains it contiguously. -/
theorem containsSub_mid (pat x y : Str) : containsSub pat (x ++ pat ++ y) = true := by
  rw [containsSub_true_iff]
  exact Exists.intro x (Exists.intro y rfl)

/-! ## Line structure of an appended conditional include stanza -/

theorem newline_not_mem_includeHeader {pat : Str} (h : '\n' ∉ pat) :
    '\n' ∉ includeHeader pat :=
  nmC (by decide) (nmA (nmA (nmA (by decide) (by decide)) h) (by decide))

theorem newline_not_mem_pathLine {cfg : Str} (h : '\n' ∉ cfg) :
    '\n' ∉ pathLine cfg :=
  nmC (by decide) (nmA (by decide) h)

/-- Appending one stanza to a file content appends exactly the three lines
of the stanza, the last one empty. -/
theorem splitOnChar_append_includeSection (pat cfg c : Str)
    (hpat : '\n' ∉ pat) (hcfg : '\n' ∉ cfg) :
    splitOnChar '\n' (c ++ includeSection pat cfg)
      = splitOnChar '\n' c ++ [includeHeader pat, pathLine cfg, []] := by
  have e1 : c ++ includeSection pat cfg
      = c ++ '\n' :: (includeHeader pat ++ '\n' :: (pathLine cfg ++ '\n' :: ([] : Str))) := rfl
  rw [e1, splitOnChar_append_sep, splitOnChar_append_sep, splitOnChar_append_sep]
  rw [splitOnChar_eq_self '\n' (includeHeader pat) (newline_not_mem_includeHeader hpat)]
  rw [splitOnChar_eq_self '\n' (pathLine cfg) (newline_not_mem_pathLine hcfg)]
  simp [splitOnChar]

theorem pathLine_ne_includeHeader (cfg pat : Str) :
    pathLine cfg ≠ includeHeader pat := by
  intro h
  have h2 := congrArg (fun l : Str => l.headD ' ') h
  simp only [pathLine, includeHeader, List.headD_cons] at h2
  exact absurd h2 (by decide)

theorem nil_ne_includeHeader (pat : Str) : ([] : Str) ≠ includeHeader pat := by
  intro h
  have h2 := congrArg (fun l : Str => l.headD ' ') h
  simp only [includeHeader, List.headD_cons, List.headD_nil] at h2
  exact absurd h2 (by decide)

/-- The key gitdir marker occurs inside the stanza header. -/
theorem gitdirKey_infix_includeHeader (pat : Str) :
    (gitdirTag ++ pat) <:+: includeHeader pat := by
  refine Exists.intro ('[' :: "includeIf \"".data) (Exists.intro "\"]".data ?_)
  simp [includeHeader, List.append_assoc]

/-- The stanza header line does not occur among the lines of a content that
does not contain the gitdir marker. -/
theorem count_includeHeader_zero (pat c : Str)
    (h0 : containsSub (gitdirTag ++ pat) c = false) :
    (splitOnChar '\n' c).count (includeHeader pat) = 0 := by
  rw [List.count_eq_zero]
  intro hmem
  have hinf : includeHeader pat <:+: c := infix_of_mem_splitOnChar '\n' c _ hmem
  have hkey : containsSub (gitdirTag ++ pat) c = true :=
    (containsSub_true_iff _ _).mpr ((gitdirKey_infix_includeHeader pat).trans hinf)
  rw [h0] at hkey
  exact absurd hkey (by decide)

/-- The gitdir marker is contained in a content ending with the stanza. -/
theorem containsSub_append_includeSection (pat cfg c : Str) :
    containsSub (gitdirTag ++ pat) (c ++ includeSection pat cfg) = true := by
  have e1 : c ++ includeSection pat cfg
      = (c ++ ('\n' :: '[' :: "includeIf \"".data)) ++ (gitdirTag ++ pat)
        ++ ("\"]".data ++ '\n' :: (pathLine cfg ++ ['\n'])) := by
    simp [includeSection, includeHeader, List.append_assoc]
  rw [e1]
  exact containsSub_mid _ _ _

theorem newline_not_mem_normalize {d : Str} (hd : '\n' ∉ d) :
    '\n' ∉ normalizeGitDir d := by
  unfold normalizeGitDir
  split
  · exact hd
  · exact nmA hd (by decide)

/-- Claim C1: for every directory path d and config path p (free of newlines,
d without a trailing separator) and every initial global configuration not
yet containing the normalized gitdir pattern, calling addConditionalInclude
twice, or once with d and once with d plus a trailing separator, leaves the
global git configuration with exactly one includeIf stanza header line for
the normalized path; the second call is a no-op. -/
theorem addConditionalInclude_c1 (d p c : Str)
    (hd : '\n' ∉ d) (hp : '\n' ∉ p)
    (hns : (['/']).isSuffixOf d = false)
    (h0 : containsSub (gitdirTag ++ normalizeGitDir d) c = false) :
    addConditionalInclude d p (some (addConditionalInclude d p (some c)))
        = addConditionalInclude d p (some c)
    ∧ addConditionalInclude (d ++ ['/']) p (some c)
        = addConditionalInclude d p (some c)
    ∧ lineCount (includeHeader (normalizeGitDir d))
        (addConditionalInclude d p (some c)) = 1 := by
  have hfirst : addConditionalInclude d p (some c)
      = c ++ includeSection (normalizeGitDir d) p := by
    unfold addConditionalInclude
    simp [h0]
  refine ⟨?_, ?_, ?_⟩
  · rw [hfirst]
    unfold addConditionalInclude
    simp [containsSub_append_includeSection]
  · have hnorm : normalizeGitDir (d ++ ['/']) = normalizeGitDir d := by
      unfold normalizeGitDir
      rw [if_pos (isSuf_iff.mpr (sufAppend d ['/'])), if_neg (by simp [hns])]
    unfold addConditionalInclude
    rw [hnorm]
  · rw [hfirst]
    unfold lineCount
    rw [splitOnChar_append_includeSection _ _ _ (newline_not_mem_normalize hd) hp]
    rw [List.count_append, count_includeHeader_zero _ _ h0]
    have hne1 : (pathLine p == includeHeader (normalizeGitDir d)) = false :=
      beq_eq_false_iff_ne.mpr (pathLine_ne_includeHeader _ _)
    have hne2 : (([] : Str) == includeHeader (normalizeGitDir d)) = false :=
      beq_eq_false_iff_ne.mpr (nil_ne_includeHeader _)
    simp [List.count_cons, hne1, hne2]

/-- Witness for C1, at the directory and config paths of the specification
example. -/
theorem addConditionalInclude_c1_witness :
    lineCount (includeHeader (normalizeGitDir "/home/u/work".data))
      (addConditionalInclude "/home/u/work".data "/home/u/work/.gitconfig".data
        (some [])) = 1 :=
  (addConditionalInclude_c1 "/home/u/work".data "/home/u/work/.gitconfig".data []
    (by decide) (by decide) (by decide) (by decide)).2.2

/-! ## Line structure of an appended SSH host alias block -/

theorem newline_not_mem_hostAliasLine {n : Str} (h : '\n' ∉ n) :
    '\n' ∉ hostAliasLine n :=
  nmC (by decide) (nmA (by decide) h)

theorem newline_not_mem_identityFileLine {kp : Str} (h : '\n' ∉ kp) :
    '\n' ∉ identityFileLine kp :=
  nmC (by decide) (nmA (by decide) h)

/-- Appending one host alias block appends exactly its six lines. -/
theorem splitOnChar_append_snippet (n kp cfg : Str)
    (hn : '\n' ∉ n) (hk : '\n' ∉ kp) :
    splitOnChar '\n' (cfg ++ sshConfigSnippet n kp)
      = splitOnChar '\n' cfg
        ++ [[], hostAliasLine n, hostNameLine, userGitLine, identityFileLine kp, []] := by
  have e1 : cfg ++ sshConfigSnippet n kp
      = cfg ++ '\n' :: (([] : Str) ++ '\n' :: (hostAliasLine n ++ '\n' ::
          (hostNameLine ++ '\n' :: (userGitLine ++ '\n' ::
            (identityFileLine kp ++ '\n' :: ([] : Str)))))) := rfl
  rw [e1, splitOnChar_append_sep, splitOnChar_append_sep, splitOnChar_append_sep,
    splitOnChar_append_sep, splitOnChar_append_sep, splitOnChar_append_sep]
  rw [splitOnChar_eq_self '\n' (hostAliasLine n) (newline_not_mem_hostAliasLine hn)]
  rw [splitOnChar_eq_self '\n' hostNameLine (by decide)]
  rw [splitOnChar_eq_self '\n' userGitLine (by decide)]
  rw [splitOnChar_eq_self '\n' (identityFileLine kp) (newline_not_mem_identityFileLine hk)]
  simp [splitOnChar]

theorem ne_hostAliasLine_of_headD {n : Str} (l : Str)
    (h : l.headD ' ' ≠ 'H') : l ≠ hostAliasLine n := by
  intro he
  rw [he] at h
  simp only [hostAliasLine, List.headD_cons] at h
  exact h rfl

/-- Counting the Host line among the lines of one appended block gives one. -/
theorem count_hostAliasLine_snippet (n kp cfg : Str)
    (hn : '\n' ∉ n) (hk : '\n' ∉ kp) :
    (splitOnChar '\n' (cfg ++ sshConfigSnippet n kp)).count (hostAliasLine n)
      = (splitOnChar '\n' cfg).count (hostAliasLine n) + 1 := by
  rw [splitOnChar_append_snippet n kp cfg hn hk, List.count_append]
  have h1 : (([] : Str) == hostAliasLine n) = false :=
    beq_eq_false_iff_ne.mpr (ne_hostAliasLine_of_headD [] (by decide))
  have h2 : (hostNameLine == hostAliasLine n) = false :=
    beq_eq_false_iff_ne.mpr (ne_hostAliasLine_of_headD hostNameLine (by decide))
  have h3 : (userGitLine == hostAliasLine n) = false :=
    beq_eq_false_iff_ne.mpr (ne_hostAliasLine_of_headD userGitLine (by decide))
  have h4 : (identityFileLine kp == hostAliasLine n) = false :=
    beq_eq_false_iff_ne.mpr (ne_hostAliasLine_of_headD (identityFileLine kp)
      (by simp [identityFileLine]))
  simp [List.count_cons, h1, h2, h3, h4]

/-- Counterexample to claim C2 as stated: appending the host alias block
twice for the same account, starting from an empty SSH configuration file,
produces two matching Host lines, not exactly one. -/
theorem appendHostAlias_c2_counterexample :
    lineCount (hostAliasLine "work".data)
      (appendHostAlias "work".data "/k".data
        (appendHostAlias "work".data "/k".data [])) ≠ 1 := by
  decide

/-- Claim C2 amended: appendHostAlias performs no scan for an existing Host
line; the block is appended unconditionally, so two calls for the same
account add exactly two matching Host lines to the SSH configuration file. -/
theorem appendHostAlias_c2_amended (n kp cfg : Str)
    (hn : '\n' ∉ n) (hk : '\n' ∉ kp) :
    lineCount (hostAliasLine n)
        (appendHostAlias n kp (appendHostAlias n kp cfg))
      = lineCount (hostAliasLine n) cfg + 2 := by
  unfold appendHostAlias lineCount
  rw [count_hostAliasLine_snippet n kp _ hn hk,
    count_hostAliasLine_snippet n kp cfg hn hk]

/-- Witness for the amended C2. -/
theorem appendHostAlias_c2_witness :
    lineCount (hostAliasLine "work".data)
        (appendHostAlias "work".data "/k".data
          (appendHostAlias "work".data "/k".data []))
      = lineCount (hostAliasLine "work".data) [] + 2 :=
  appendHostAlias_c2_amended "work".data "/k".data [] (by decide) (by decide)

/-! ## Facts about replaceFirst and the store operations -/

/-- Successful replacement decomposes the list at the first name match. -/
theorem replaceFirst_eq_some (l : List Account) (a : Account) (r : List Account)
    (h : replaceFirst l a = some r) :
    ∃ t₁ x t₂, l = t₁ ++ x :: t₂ ∧ x.name = a.name
      ∧ (∀ y ∈ t₁, y.name ≠ a.name) ∧ r = t₁ ++ a :: t₂ := by
  induction l generalizing r with
  | nil => simp [replaceFirst] at h
  | cons b l ih =>
    by_cases hb : b.name = a.name
    · rw [replaceFirst, if_pos hb] at h
      refine ⟨[], b, l, by simp, hb, by simp, ?_⟩
      simpa using h.symm
    · rw [replaceFirst, if_neg hb] at h
      cases hrl : replaceFirst l a with
      | none => rw [hrl] at h; exact absurd h (by simp)
      | some ys =>
        rw [hrl] at h
        obtain ⟨t₁, x, t₂, h1, h2, h3, h4⟩ := ih ys hrl
        refine ⟨b :: t₁, x, t₂, by simp [h1], h2, ?_, ?_⟩
        · intro y hy
          rcases List.mem_cons.mp hy with rfl | hy2
          · exact hb
          · exact h3 y hy2
        · have hys : b :: ys = r := by simpa using h
          rw [← hys, h4]
          simp

/-- A name match in the list makes replaceFirst succeed. -/
theorem replaceFirst_isSome (l : List Account) (a : Account)
    (h : a.name ∈ l.map Account.name) :
    ∃ r, replaceFirst l a = some r := by
  induction l with
  | nil => simp at h
  | cons b l ih =>
    by_cases hb : b.name = a.name
    · exact ⟨a :: l, by rw [replaceFirst, if_pos hb]⟩
    · have h2 : a.name ∈ l.map Account.name := by
        rcases List.mem_map.mp h with ⟨y, hy, hyn⟩
        rcases List.mem_cons.mp hy with rfl | hy2
        · exact absurd hyn hb
        · exact List.mem_map.mpr ⟨y, hy2, hyn⟩
      obtain ⟨r, hr⟩ := ih h2
      exact ⟨b :: r, by rw [replaceFirst, if_neg hb, hr]⟩

/-- Claim C3: adding an account whose name matches an existing one replaces
the first matching entry in place: the sequence decomposes around that entry,
the length is unchanged, entries before and after keep their positions, and
the number of entries carrying that name is unchanged. -/
theorem addAccount_c3 (c : Config) (a : Account)
    (h : a.name ∈ c.accounts.map Account.name) :
    ∃ t₁ x t₂, c.accounts = t₁ ++ x :: t₂ ∧ x.name = a.name
      ∧ (∀ y ∈ t₁, y.name ≠ a.name)
      ∧ (addAccount c a).accounts = t₁ ++ a :: t₂
      ∧ (addAccount c a).accounts.length = c.accounts.length
      ∧ (addAccount c a).accounts.countP (fun y => y.name == a.name)
          = c.accounts.countP (fun y => y.name == a.name) := by
  obtain ⟨r, hr⟩ := replaceFirst_isSome c.accounts a h
  obtain ⟨t₁, x, t₂, h1, h2, h3, h4⟩ := replaceFirst_eq_some c.accounts a r hr
  have hacc : (addAccount c a).accounts = t₁ ++ a :: t₂ := by
    unfold addAccount
    rw [hr, h4]
  refine ⟨t₁, x, t₂, h1, h2, h3, hacc, ?_, ?_⟩
  · rw [hacc, h1]
    simp
  · rw [hacc, h1]
    simp [List.countP_append, List.countP_cons, h2]

/-- Witness for C3: overwriting the account named work in a two-account
store keeps the length at two. -/
theorem addAccount_c3_witness :
    (addAccount
      { accounts := [
          { name := "work".data, email := "a@b".data, sshKey := [],
            username := "u1".data, isDefault := false },
          { name := "home".data, email := "c@d".data, sshKey := [],
            username := "u2".data, isDefault := false }],
        currentAccount := "work".data, migrationDone := true }
      { name := "work".data, email := "new@b".data, sshKey := "/k".data,
        username := "u3".data, isDefault := false }).accounts.length
      = 2 := by
  have h := addAccount_c3
    { accounts := [
        { name := "work".data, email := "a@b".data, sshKey := [],
          username := "u1".data, isDefault := false },
        { name := "home".data, email := "c@d".data, sshKey := [],
          username := "u2".data, isDefault := false }],
      currentAccount := "work".data, migrationDone := true }
    { name := "work".data, email := "new@b".data, sshKey := "/k".data,
      username := "u3".data, isDefault := false }
    (by decide)
  obtain ⟨t₁, x, t₂, _, _, _, _, h5, _⟩ := h
  exact h5

/-! ## Preservation of the store invariant -/

theorem addAccount_preserves_inv (c : Config) (a : Account)
    (hinv : configInv c) : configInv (addAccount c a) := by
  cases hrep : replaceFirst c.accounts a with
  | some r =>
    obtain ⟨t₁, x, t₂, h1, h2, _, h4⟩ := replaceFirst_eq_some c.accounts a r hrep
    have hacc : addAccount c a = { c with accounts := t₁ ++ a :: t₂ } := by
      unfold addAccount
      rw [hrep, h4]
    rw [hacc]
    rcases hinv with hcur | ⟨y, hy, hyn⟩
    · exact Or.inl hcur
    · rw [h1] at hy
      rcases List.mem_append.mp hy with hy1 | hy2
      · exact Or.inr ⟨y, List.mem_append_left _ hy1, hyn⟩
      · rcases List.mem_cons.mp hy2 with rfl | hy3
        · refine Or.inr ⟨a, List.mem_append_right _ (List.mem_cons_self _ _), ?_⟩
          rw [← h2]
          exact hyn
        · exact Or.inr ⟨y, List.mem_append_right _ (List.mem_cons_of_mem _ hy3), hyn⟩
  | none =>
    unfold addAccount
    rw [hrep]
    by_cases hlen : (c.accounts ++ [a]).length = 1
    · rw [if_pos hlen]
      exact Or.inr ⟨{ a with isDefault := true }, List.mem_cons_self _ _, rfl⟩
    · rw [if_neg hlen]
      rcases hinv with hcur | ⟨y, hy, hyn⟩
      · exact Or.inl hcur
      · exact Or.inr ⟨y, List.mem_append_left _ hy, hyn⟩

theorem setCurrentAccount_preserves_inv (c : Config) (m : Str) (r : Config)
    (h : setCurrentAccount c m = some r) : configInv r := by
  unfold setCurrentAccount at h
  cases hga : getAccount c m with
  | none => rw [hga] at h; exact absurd h (by simp)
  | some x =>
    rw [hga] at h
    have hr : r = { c with currentAccount := m } := by simpa using h.symm
    unfold getAccount at hga
    have hx : x ∈ c.accounts := List.mem_of_find?_eq_some hga
    have hxn := List.find?_some hga
    rw [hr]
    exact Or.inr ⟨x, hx, eq_of_beq hxn⟩

theorem removeAccount_preserves_inv (c : Config) (m : Str)
    (hinv : configInv c) : configInv (removeAccount c m) := by
  have hacc : (removeAccount c m).accounts
      = c.accounts.filter (fun a => a.name != m) := rfl
  have hcur : (removeAccount c m).currentAccount
      = (if c.currentAccount = m then
          match c.accounts.filter (fun a => a.name != m) with
          | [] => []
          | x :: _ => x.name
        else c.currentAccount) := rfl
  unfold configInv
  rw [hacc, hcur]
  by_cases hcm : c.currentAccount = m
  · rw [if_pos hcm]
    cases hflt : c.accounts.filter (fun a => a.name != m) with
    | nil => exact Or.inl rfl
    | cons x xs => exact Or.inr ⟨x, List.mem_cons_self _ _, rfl⟩
  · rw [if_neg hcm]
    rcases hinv with hcv | ⟨y, hy, hyn⟩
    · exact Or.inl hcv
    · refine Or.inr ⟨y, ?_, hyn⟩
      refine List.mem_filter.mpr ⟨hy, ?_⟩
      have hne : y.name ≠ m := by rw [hyn]; exact hcm
      simpa using hne

/-- Claim C4: the store-mutating operations preserve the invariant that a
non-empty currentAccount names an existing account (removal re-points or
empties it), and a dangling currentAccount is tolerated: lookup returns none
and the display logic marks no account as current. -/
theorem storeInv_c4 (c : Config) (a : Account) (m g : Str)
    (hinv : configInv c) (hg : ∀ x ∈ c.accounts, x.name ≠ g) :
    configInv (addAccount c a)
    ∧ (∀ r, setCurrentAccount c m = some r → configInv r)
    ∧ configInv (removeAccount c m)
    ∧ getAccount c g = none
    ∧ (∀ x ∈ c.accounts, isCurrentMark { c with currentAccount := g } x = false) := by
  refine ⟨addAccount_preserves_inv c a hinv,
    fun r hr => setCurrentAccount_preserves_inv c m r hr,
    removeAccount_preserves_inv c m hinv, ?_, ?_⟩
  · unfold getAccount
    refine List.find?_eq_none.mpr ?_
    intro x hx
    simpa using hg x hx
  · intro x hx
    unfold isCurrentMark
    exact beq_eq_false_iff_ne.mpr (hg x hx)

/-- Witness for C4: in a one-account store with a dangling candidate name,
the lookup of the dangling name returns none. -/
theorem storeInv_c4_witness :
    getAccount
      { accounts := [
          { name := "work".data, email := "a@b".data, sshKey := [],
            username := "u1".data, isDefault := false }],
        currentAccount := "work".data, migrationDone := true }
      "ghost".data = none :=
  (storeInv_c4
    { accounts := [
        { name := "work".data, email := "a@b".data, sshKey := [],
          username := "u1".data, isDefault := false }],
      currentAccount := "work".data, migrationDone := true }
    { name := "home".data, email := "c@d".data, sshKey := [],
      username := "u2".data, isDefault := false }
    "work".data "ghost".data (by decide) (by decide)).2.2.2.1

/-! ## Key suffix derivation -/

theorem trimLeading_id_of_dot (s lit : Str) (hd : '.' ∉ s) (hl : '.' ∈ lit) :
    trimLeading s lit = s := by
  unfold trimLeading
  rw [if_neg]
  intro hpre
  exact hd ((isPre_iff.mp hpre).subset hl)

/-- Claim C5: generateKeySuffix strips the provider prefixes, takes the first
dot-separated label truncated to 8 characters, falls back to the first 8
characters of the raw hostname when it has no dot, and meets the three
specification examples. -/
theorem generateKeySuffix_c5 :
    (∀ s : Str, generateKeySuffix s = specKeySuffix s)
    ∧ (∀ s : Str, '.' ∉ s → generateKeySuffix s = s.take 8)
    ∧ generateKeySuffix "git.company.com".data = "company".data
    ∧ generateKeySuffix "shortdomain".data = "shortdom".data
    ∧ generateKeySuffix "a.b".data = "a".data := by
  have hgen : ∀ s : Str, generateKeySuffix s = specKeySuffix s := by
    intro s
    unfold generateKeySuffix specKeySuffix
    dsimp only
    generalize trimLeading (trimLeading (trimLeading s "git.".data)
      "code.".data) "source.".data = h3
    by_cases hlen : 2 ≤ (splitOnChar '.' h3).length
    · rw [if_pos hlen]
      by_cases h8 : 8 < ((splitOnChar '.' h3).headD []).length
      · rw [if_pos h8]
      · rw [if_neg h8]
        exact (List.take_of_length_le (Nat.le_of_not_lt h8)).symm
    · rw [if_neg hlen]
      have hne := splitOnChar_ne_nil '.' h3
      have hone : (splitOnChar '.' h3).length = 1 := by
        have hpos : 0 < (splitOnChar '.' h3).length := List.length_pos.mpr hne
        omega
      obtain ⟨x, hx⟩ := List.length_eq_one.mp hone
      have hxh : h3 = x := splitOnChar_eq_single '.' h3 x hx
      rw [hx, ← hxh]
      by_cases h8 : 8 < h3.length
      · rw [if_pos h8]
        rfl
      · rw [if_neg h8]
        exact (List.take_of_length_le (Nat.le_of_not_lt h8)).symm
  refine ⟨hgen, ?_, by decide, by decide, by decide⟩
  intro s hdot
  have ht1 : trimLeading s "git.".data = s := trimLeading_id_of_dot s _ hdot (by decide)
  have ht2 : trimLeading s "code.".data = s := trimLeading_id_of_dot s _ hdot (by decide)
  have ht3 : trimLeading s "source.".data = s := trimLeading_id_of_dot s _ hdot (by decide)
  rw [hgen s]
  unfold specKeySuffix
  rw [ht1, ht2, ht3, splitOnChar_eq_self '.' s hdot]
  rfl

/-- Witness for C5: a hostname without a dot is truncated to 8 characters. -/
theorem generateKeySuffix_c5_witness :
    generateKeySuffix "shortdomain".data = ("shortdomain".data).take 8 :=
  generateKeySuffix_c5.2.1 "shortdomain".data (by decide)

/-! ## Key pair generation -/

/-- Claim C6: generateKeyPair fails with AlreadyExists without invoking the
external tool when a file occupies the path; otherwise it invokes ssh-keygen
with the ed25519 algorithm, the comment, the output path, and an empty
passphrase; it fails with GenerationFailed on a non-zero exit; and on success
it returns the content of the companion public key file at the path with the
.pub extension. -/
theorem generateKeyPair_c6 (outcome : Option (Str × Str)) (keyPath email : Str)
    (fs : FS) :
    ((statNode fs keyPath).isSome = true →
      generateKeyPair outcome keyPath email fs = (.alreadyExists, none))
    ∧ (statNode fs keyPath = none →
      (generateKeyPair outcome keyPath email fs).2 = some (keygenArgs email keyPath))
    ∧ (statNode fs keyPath = none → outcome = none →
      generateKeyPair outcome keyPath email fs
        = (.generationFailed, some (keygenArgs email keyPath)))
    ∧ (∀ priv pub, statNode fs keyPath = none → outcome = some (priv, pub) →
      generateKeyPair outcome keyPath email fs
        = (.ok pub, some (keygenArgs email keyPath))
      ∧ statNode ((keyPath ++ ".pub".data, .file pub) :: (keyPath, .file priv) :: fs)
          (keyPath ++ ".pub".data) = some (.file pub)) := by
  refine ⟨?_, ?_, ?_, ?_⟩
  · intro hex
    unfold generateKeyPair
    rw [if_pos hex]
  · intro habs
    unfold generateKeyPair
    rw [if_neg (by simp [habs])]
    cases outcome with
    | none => rfl
    | some pr =>
      obtain ⟨priv, pub⟩ := pr
      simp [statNode, List.find?]
  · intro habs hout
    unfold generateKeyPair
    rw [if_neg (by simp [habs]), hout]
  · intro priv pub habs hout
    have hread : statNode ((keyPath ++ ".pub".data, .file pub)
        :: (keyPath, .file priv) :: fs) (keyPath ++ ".pub".data)
        = some (.file pub) := by
      simp [statNode, List.find?]
    refine ⟨?_, hread⟩
    unfold generateKeyPair
    rw [if_neg (by simp [habs]), hout]
    simp [hread]

/-- Witness for C6: with an occupied path, the result is AlreadyExists and
the tool is not invoked. -/
theorem generateKeyPair_c6_witness :
    generateKeyPair none "/k".data "e@x".data [("/k".data, .file [])]
      = (.alreadyExists, none) :=
  (generateKeyPair_c6 none "/k".data "e@x".data [("/k".data, .file [])]).1
    (by decide)

/-! ## Local identity switching -/

/-- Claim C7: at local scope the repository check precedes every git
configuration change: a path without a .git directory yields NotARepository
with no invocation performed, and a path with one yields the two local-scope
invocations setting user.name and user.email. -/
theorem useLocal_c7 (fs : FS) (c : Config) (accountName repoPath : Str) :
    (isGitRepository fs repoPath = false →
      useLocal fs c accountName repoPath = (.notARepository, []))
    ∧ (∀ a, isGitRepository fs repoPath = true → getAccount c accountName = some a →
      useLocal fs c accountName repoPath
        = (.ok, [setGitConfigArgs "user.name".data a.username repoPath false,
                 setGitConfigArgs "user.email".data a.email repoPath false])) := by
  constructor
  · intro hrep
    unfold useLocal
    rw [if_pos hrep]
  · intro a hrep hacc
    unfold useLocal
    rw [if_neg (by simp [hrep]), hacc]

/-- Witness for C7: on an empty filesystem the path is not a repository and
nothing is invoked. -/
theorem useLocal_c7_witness :
    useLocal [] defaultConfig "work".data "/r".data = (.notARepository, []) :=
  (useLocal_c7 [] defaultConfig "work".data "/r".data).1 (by decide)

/-! ## Permissions of the SSH directory and configuration file -/

/-- Counterexample to claim C8 as stated: the SSH configuration file is not
created with mode 0600; the directory mode is 0700 but the file mode is 0644. -/
theorem sshPermissions_c8_counterexample :
    ¬ ((ensureSSHDirectory []).perm = 0o700 ∧ (openSSHConfigCall []).perm = 0o600) := by
  decide

/-- Claim C8 amended: the SSH directory is created with mode 0700 by MkdirAll
and the SSH configuration file is created, when missing, with mode 0644 by
OpenFile with the create flag. -/
theorem sshPermissions_c8_amended (home : Str) :
    (ensureSSHDirectory home).perm = 0o700
    ∧ (ensureSSHDirectory home).path = home ++ "/.ssh".data
    ∧ (openSSHConfigCall home).create = true
    ∧ (openSSHConfigCall home).perm = 0o644 :=
  ⟨rfl, rfl, rfl, rfl⟩

/-! ## Discovery scanner -/

/-- Every account produced by the SSH config loop is not suggested. -/
theorem discoverSSHLoop_suggested :
    ∀ (lines : List Str) (host : Str),
      ∀ a ∈ discoverSSHLoop lines host, a.suggested = false := by
  intro lines
  induction lines with
  | nil =>
    intro host a ha
    simp [discoverSSHLoop] at ha
  | cons line rest ih =>
    intro host a ha
    rw [discoverSSHLoop] at ha
    split_ifs at ha with h1 h2 h3
    · exact ih _ a ha
    · rcases List.mem_cons.mp ha with rfl | ha2
      · rfl
      · exact ih _ a ha2
    · exact ih _ a ha
    · exact ih _ a ha

/-- Claim C9: the discovery scan is total, a missing SSH config file yields
no entries rather than an error, the produced sequence is the optional
global entry (source Global Git Config, suggested true exactly when the
global user name or email is non-empty) followed by the SSH entries, and
every SSH entry is not suggested. -/
theorem discovery_c9 (globalUser globalEmail : Str) (sshConfig : Option Str) :
    discoverExistingAccounts globalUser globalEmail sshConfig
      = (if globalUser ≠ [] ∨ globalEmail ≠ [] then
          [{ name := globalUser, email := globalEmail, username := [],
             source := "Global Git Config".data, suggested := true }]
        else []) ++ discoverSSHAccounts sshConfig
    ∧ (∀ a ∈ discoverSSHAccounts sshConfig, a.suggested = false)
    ∧ discoverSSHAccounts none = [] := by
  refine ⟨rfl, ?_, rfl⟩
  cases sshConfig with
  | none => simp [discoverSSHAccounts]
  | some content => exact discoverSSHLoop_suggested _ _

/-- Witness for C9: a small SSH config with one alias block yields one entry
after the suggested global one. -/
theorem discovery_c9_witness :
    discoverExistingAccounts "U".data "e@x".data
        (some "Host github.com-w\n  User git\n".data)
      = [{ name := "U".data, email := "e@x".data, username := [],
           source := "Global Git Config".data, suggested := true }]
        ++ discoverSSHAccounts (some "Host github.com-w\n  User git\n".data) := by
  have h := (discovery_c9 "U".data "e@x".data
    (some "Host github.com-w\n  User git\n".data)).1
  rw [h]
  rw [if_pos (by decide)]

/-! ## Loading the config store -/

/-- Claim C10: loading with the config file absent succeeds with the fresh
default store (no accounts, empty current account, migration not done), and
an error arises only from an unreadable existing file or unparseable content. -/
theorem loadConfig_c10 (parseJson : Str → Option Config) :
    loadConfig .absent parseJson = .ok defaultConfig
    ∧ defaultConfig.accounts = []
    ∧ defaultConfig.currentAccount = []
    ∧ defaultConfig.migrationDone = false
    ∧ (∀ f e, loadConfig f parseJson = .error e →
        f = .unreadable ∨ ∃ s, f = .content s ∧ parseJson s = none) := by
  refine ⟨rfl, rfl, rfl, rfl, ?_⟩
  intro f e hf
  cases f with
  | absent => exact absurd hf (by simp [loadConfig])
  | unreadable => exact Or.inl rfl
  | content s =>
    refine Or.inr ⟨s, rfl, ?_⟩
    cases hps : parseJson s with
    | none => rfl
    | some c =>
      rw [loadConfig] at hf
      rw [hps] at hf
      exact absurd hf (by simp)

/-- Witness for C10: loading an absent file under a trivial parser yields the
default store. -/
theorem loadConfig_c10_witness :
    loadConfig .absent (fun _ => none) = .ok defaultConfig :=
  (loadConfig_c10 (fun _ => none)).1

theorem includeSection_literal :
    includeSection "/w/".data "/w/.gitconfig".data
      = "\n[includeIf \"gitdir:/w/\"]\n\tpath = /w/.gitconfig\n".data := by decide

theorem sshConfigSnippet_literal :
    sshConfigSnippet "work".data "/k".data
      = "\n\nHost github.com-work\n  HostName github.com\n  User git\n  IdentityFile /k\n".data := by
  decide

end Krakncat
